import Mathlib

/-!
# SendNote frontend — verification of spec claims

Shallow embedding of the SendNote chat-styled note-taking client
(TypeScript/React over a Supabase backend).  Pure logic is translated
function-by-function from the source; backend behaviour (row filtering by
the PostgREST query builder, full-text matching) is embedded as explicit
filtering over an in-memory list of rows, and vendor library behaviour
that the source configures (DOMPurify, highlight.js, marked) is modelled
from the spec where noted.
-/

set_option autoImplicit false

namespace SendNote

/-! ## JS strings

Strings manipulated by the UI helpers are modelled as lists of
characters. -/

abbrev Str := List Char

def str (s : String) : Str := s.data

/-- ASCII portion of the JS `\s` class (and of `String.prototype.trim`). -/
def isWsChar (c : Char) : Bool :=
  c = ' ' || c = '\t' || c = '\n' || c = '\r' || c = '\x0b' || c = '\x0c'

/-- JS `String.prototype.trim`. -/
def jsTrim (s : Str) : Str :=
  ((s.dropWhile isWsChar).reverse.dropWhile isWsChar).reverse

/-! ## Database rows

The client reads rows of the `messages` table (generated types in
`supabase.ts`).  Only the columns the verified claims touch are carried;
timestamps are kept as strings, nullable columns as `Option`. -/

structure MessageRow where
  id : String
  channel_id : String
  body : String
  created_at : String
  deleted_at : Option String
  starred_at : Option String
deriving DecidableEq

structure ChannelRow where
  id : String
  name : String
deriving DecidableEq

/-! ## Query embedding

A PostgREST select with filters, an order and a limit is embedded as
filter / sort / take over the list of table rows.  `sortBy` is insertion
sort: only membership in the result matters to the claims, not the
particular stable order. -/

def insertBy {α : Type} (le : α → α → Bool) (a : α) : List α → List α
  | [] => [a]
  | b :: l => if le a b then a :: b :: l else b :: insertBy le a l

def sortBy {α : Type} (le : α → α → Bool) : List α → List α
  | [] => []
  | a :: l => insertBy le a (sortBy le l)

/-- Ascending order on `created_at` (`.order("created_at", { ascending: true })`). -/
def createdAsc (a b : MessageRow) : Bool := !decide (b.created_at < a.created_at)

/-- Descending order on `created_at` (`.order("created_at", { ascending: false })`). -/
def createdDesc (a b : MessageRow) : Bool := !decide (a.created_at < b.created_at)

/-- The messages select issued by `ChatWindow.fetchChannelAndMessages` and
`ChatWindow.fetchMessages` (the realtime re-fetch): rows of the channel,
`deleted_at` null, ordered by `created_at` ascending. -/
def fetchMessagesQuery (channelId : String) (db : List MessageRow) : List MessageRow :=
  sortBy createdAsc
    (db.filter (fun m => decide (m.channel_id = channelId) && decide (m.deleted_at = none)))

/-- The full-text search select issued by `useMessageSearch`.  The backend
full-text match on the `fts` column is a parameter `ftsMatch`; the query
filters `deleted_at` null, optionally filters by channel (the filter is
applied only when a channel id is present, non-empty and not `"all"`),
orders by `created_at` descending and limits to 50 rows.  An
empty-after-trim query short-circuits to no results. -/
def useMessageSearch (ftsMatch : MessageRow → Bool) (query : Str)
    (channelId : Option String) (db : List MessageRow) : List MessageRow :=
  if jsTrim query = [] then []
  else
    let applyChannel : Bool :=
      match channelId with
      | none => false
      | some c => !decide (c = "") && !decide (c = "all")
    let rows := db.filter (fun m =>
      ftsMatch m && decide (m.deleted_at = none) &&
        (match channelId with
         | none => true
         | some c => if applyChannel then decide (m.channel_id = c) else true))
    (sortBy createdDesc rows).take 50

/-- The select issued by `StarredMessages.fetchStarredMessages`:
`starred_at` not null and `deleted_at` null. -/
def fetchStarredQuery (db : List MessageRow) : List MessageRow :=
  db.filter (fun m => decide (m.starred_at ≠ none) && decide (m.deleted_at = none))

/-- The attachment-cleanup lookup issued by `Sidebar.handleDeleteChannel`
before deleting a channel: it selects messages of the channel with
`.eq('channel_id', id)` and no other row filter. -/
def sidebarCleanupQuery (channelId : String) (db : List MessageRow) : List MessageRow :=
  db.filter (fun m => decide (m.channel_id = channelId))

/-! ## Message references (`createMessageReferences`) -/

structure RefRecord where
  source_message_id : String
  referenced_message_id : String
deriving DecidableEq

/-- Outcome of `createMessageReferences`: the returned `{ data, error }`
pair, plus `inserted`, the records actually sent to the
`message_references` table (`[]` when no insert was performed). -/
structure RefsOutcome where
  data : Option (List RefRecord)
  error : Option String
  inserted : List RefRecord
deriving DecidableEq

/-- Function `createMessageReferences` from the references module.  The backend
insert result is a parameter: `insertError = some e` models the insert
returning an error `e`. -/
def createMessageReferences (insertError : Option String)
    (sourceMessageId : String) (referencedMessageIds : List String) : RefsOutcome :=
  if sourceMessageId = "" || referencedMessageIds.isEmpty then
    { data := none
      error := some "Source message ID and at least one referenced message ID required"
      inserted := [] }
  else
    let validIds := referencedMessageIds.filter (fun id => !decide (id = sourceMessageId))
    if validIds.isEmpty then
      { data := some [], error := none, inserted := [] }
    else
      let records := validIds.map (fun refId =>
        { source_message_id := sourceMessageId, referenced_message_id := refId })
      match insertError with
      | some e => { data := none, error := some e, inserted := records }
      | none => { data := some records, error := none, inserted := records }

/-! ## Client-side channel cache (`ChatCacheContext`)

The cache is a `Map` from channel id to its last-known message list and
channel metadata, embedded as a function to `Option`. -/

structure CacheEntry where
  messages : List MessageRow
  channel : ChannelRow
deriving DecidableEq

def CacheMap : Type := String → Option CacheEntry

def getCachedChannel (cache : CacheMap) (channelId : String) : Option CacheEntry :=
  cache channelId

def setCachedChannel (channelId : String) (messages : List MessageRow)
    (channel : ChannelRow) (cache : CacheMap) : CacheMap :=
  fun k => if k = channelId then some { messages := messages, channel := channel } else cache k

/-- Function `updateCachedMessages`: replaces the message list of an existing
entry; if the channel has no entry the cache is returned unchanged. -/
def updateCachedMessages (channelId : String) (messages : List MessageRow)
    (cache : CacheMap) : CacheMap :=
  match cache channelId with
  | none => cache
  | some entry =>
    fun k => if k = channelId then some { entry with messages := messages } else cache k

def clearCache (_cache : CacheMap) : CacheMap := fun _ => none

/-- The `ChatCacheProvider` effect `useEffect(... if (!session) setCache(new Map()))`:
whenever the session is absent the whole cache is replaced by an empty map. -/
def signOutEffect (session : Option Unit) (cache : CacheMap) : CacheMap :=
  match session with
  | none => fun _ => none
  | some _ => cache

/-! ## ChatWindow optimistic edit / delete

`handleDeleteMessage` and `handleEditMessage` update local state (and the
cache) optimistically, issue the backend update, and on error re-fetch the
authoritative message list via `fetchMessages` (which also refreshes the
cache).  `db` is the server's current `messages` table, `updateErr` models
the backend update returning an error. -/

def handleDeleteMessage (db : List MessageRow) (channelId : String) (updateErr : Bool)
    (st : List MessageRow × CacheMap) (id : String) : List MessageRow × CacheMap :=
  let updatedMessages := st.1.filter (fun m => !decide (m.id = id))
  let cache1 := updateCachedMessages channelId updatedMessages st.2
  if updateErr then
    let fetched := fetchMessagesQuery channelId db
    (fetched, updateCachedMessages channelId fetched cache1)
  else
    (updatedMessages, cache1)

def handleEditMessage (db : List MessageRow) (channelId : String) (updateErr : Bool)
    (st : List MessageRow × CacheMap) (id : String) (newBody : String) :
    List MessageRow × CacheMap :=
  let updatedMessages := st.1.map (fun m => if m.id = id then { m with body := newBody } else m)
  let cache1 := updateCachedMessages channelId updatedMessages st.2
  if updateErr then
    let fetched := fetchMessagesQuery channelId db
    (fetched, updateCachedMessages channelId fetched cache1)
  else
    (updatedMessages, cache1)

/-! ## Markdown rendering (`markdown.ts`) -/

/-- JS `String.prototype.startsWith`. -/
def jsStartsWith (s p : Str) : Bool := p.isPrefixOf s

/-- Character class `[a-zA-Z\d+\-.]` of the scheme regex in `renderer.link`. -/
def isSchemeChar (c : Char) : Bool := c.isAlpha || c.isDigit || c = '+' || c = '-' || c = '.'

def schemeTail : Str → Bool
  | [] => false
  | c :: r => if c = ':' then true else if isSchemeChar c then schemeTail r else false

/-- The test `/^[a-zA-Z][a-zA-Z\d+\-.]*:/.test(href)` from `renderer.link`. -/
def hasProtocol : Str → Bool
  | [] => false
  | c :: r => c.isAlpha && schemeTail r

/-- The computation `const titleAttr = title ? \x60 title="${title}"\x60 : ""`; a JS
empty-string title is falsy and also yields no attribute. -/
def titleAttrOf (title : Option Str) : Str :=
  match title with
  | some t => if t.isEmpty then [] else str " title=\"" ++ t ++ str "\""
  | none => []

/-- Renderer override `renderer.link` from `markdown.ts`. -/
def rendererLink (href : Str) (title : Option Str) (text : Str) : Str :=
  let isInternal := jsStartsWith href (str "#") || jsStartsWith href (str "/")
  let finalHref :=
    if !isInternal && !hasProtocol href &&
        (href.contains '.' || jsStartsWith href (str "www")) then
      str "https://" ++ href
    else href
  let isFinalInternal := jsStartsWith finalHref (str "#") || jsStartsWith finalHref (str "/")
  let targetAttr :=
    if isFinalInternal then [] else str " target=\"_blank\" rel=\"noopener noreferrer\""
  str "<a href=\"" ++ finalHref ++ str "\"" ++ targetAttr ++ titleAttrOf title ++
    str ">" ++ text ++ str "</a>"

/-- Renderer override `renderer.code` from `markdown.ts`, parameterized by the highlight.js
calls it makes: `getLanguage` (is the tag recognized), `highlight`
(highlight for a given language) and `highlightAuto` (auto-detection). -/
def rendererCode (getLanguage : Str → Bool) (highlight : Str → Str → Str)
    (highlightAuto : Str → Str) (text : Str) (lang : Option Str) : Str :=
  let validLang : Bool :=
    match lang with
    | some l => !l.isEmpty && getLanguage l
    | none => false
  let highlighted := if validLang then highlight (lang.getD []) text else highlightAuto text
  let languageClass :=
    if validLang then str "language-" ++ lang.getD [] else str "language-plaintext"
  str "<pre><code class=\"hljs " ++ languageClass ++ str "\">" ++ highlighted ++
    str "</code></pre>"

/-! ### DOMPurify sanitization

The DOM tree DOMPurify walks is embedded as `Html`; tag and attribute
names are lowercase, as HTML parsing produces them. -/

inductive Html where
  | text : String → Html
  | elem : String → List (String × String) → List Html → Html

/-- List `sanitizeOptions.ALLOWED_TAGS` from `markdown.ts`. -/
def ALLOWED_TAGS : List String :=
  ["a", "b", "blockquote", "br", "code", "del", "div", "em", "h1", "h2", "h3",
   "h4", "h5", "h6", "hr", "i", "img", "li", "ol", "p", "pre", "span",
   "strong", "table", "tbody", "td", "th", "thead", "tr", "ul", "strike",
   "details", "summary"]

/-- List `sanitizeOptions.ALLOWED_ATTR` from `markdown.ts`. -/
def ALLOWED_ATTR : List String :=
  ["href", "name", "target", "rel", "src", "alt", "class", "title", "align"]

/-- List `sanitizeOptions.FORBID_TAGS` from `markdown.ts`. -/
def FORBID_TAGS : List String :=
  ["style", "script", "iframe", "form", "input", "textarea", "button"]

/-- List `sanitizeOptions.FORBID_ATTR` from `markdown.ts`. -/
def FORBID_ATTR : List String := ["style", "onerror", "onload", "onclick"]

/-- A tag survives sanitization iff it is allow-listed and not forbidden. -/
def keepTag (t : String) : Bool := ALLOWED_TAGS.contains t && !FORBID_TAGS.contains t

/-- An attribute survives sanitization iff allow-listed and not forbidden. -/
def attrAllowed (n : String) : Bool := ALLOWED_ATTR.contains n && !FORBID_ATTR.contains n

/-- Modelled from the spec: DOMPurify's default `FORBID_CONTENTS` set (the
library itself is a vendor dependency, absent from the repository).  When a
disallowed element is removed, its children are kept unless its tag is in
this set. -/
def FORBID_CONTENTS : List String :=
  ["annotation-xml", "audio", "colgroup", "desc", "foreignobject", "head",
   "iframe", "math", "mi", "mn", "mo", "ms", "mtext", "noembed", "noframes",
   "noscript", "plaintext", "script", "style", "svg", "template", "thead",
   "title", "video", "xmp"]

/-- DOM `getAttribute`: value of the first attribute with the given name. -/
def getAttr : List (String × String) → String → Option String
  | [], _ => none
  | p :: t, n => if p.1 = n then some p.2 else getAttr t n

def hasAttrKey : List (String × String) → String → Bool
  | [], _ => false
  | p :: t, n => decide (p.1 = n) || hasAttrKey t n

/-- DOM `setAttribute`: replace in place when the attribute exists,
append otherwise. -/
def setAttr (attrs : List (String × String)) (n v : String) : List (String × String) :=
  if hasAttrKey attrs n then
    attrs.map (fun p => if p.1 = n then (n, v) else p)
  else attrs ++ [(n, v)]

/-- DOM `removeAttribute`. -/
def removeAttr (attrs : List (String × String)) (n : String) : List (String × String) :=
  attrs.filter (fun p => !decide (p.1 = n))

def strStartsWith (s p : String) : Bool := p.data.isPrefixOf s.data

/-- The `afterSanitizeAttributes` DOMPurify hook from `markdown.ts`: on
anchor elements, external links get `target="_blank"` and
`rel="noopener noreferrer"`, internal ones (href starting with `#` or `/`)
get both attributes removed. -/
def afterSanitizeAttributes (tag : String) (attrs : List (String × String)) :
    List (String × String) :=
  if tag = "a" then
    let href := (getAttr attrs "href").getD ""
    let isInternal := strStartsWith href "#" || strStartsWith href "/"
    if !isInternal then
      setAttr (setAttr attrs "target" "_blank") "rel" "noopener noreferrer"
    else
      removeAttr (removeAttr attrs "target") "rel"
  else attrs

def filterAttrs (attrs : List (String × String)) : List (String × String) :=
  attrs.filter (fun p => attrAllowed p.1)

/-- Modelled from the spec: `DOMPurify.sanitize` with `sanitizeOptions`
(the library is a vendor dependency, absent from the repository).  Allowed
elements keep their allow-listed attributes, then the registered
`afterSanitizeAttributes` hook runs; disallowed elements are removed, their
children spliced in (kept) unless the tag is in `FORBID_CONTENTS`; text is
preserved. -/
def sanitizeList : List Html → List Html
  | [] => []
  | Html.text s :: rest => Html.text s :: sanitizeList rest
  | Html.elem tag attrs children :: rest =>
    if keepTag tag then
      Html.elem tag (afterSanitizeAttributes tag (filterAttrs attrs)) (sanitizeList children)
        :: sanitizeList rest
    else if FORBID_CONTENTS.contains tag then
      sanitizeList rest
    else
      sanitizeList children ++ sanitizeList rest
termination_by l => sizeOf l
decreasing_by all_goals (simp_wf; try omega)

/-- Is the attribute name an inline event handler (starts with `on`)? -/
def attrNameOn (n : String) : Bool :=
  match n.data with
  | 'o' :: 'n' :: _ => true
  | _ => false

def cleanAttrs (attrs : List (String × String)) : Bool :=
  attrs.all (fun p => !attrNameOn p.1)

/-- No `script` element and no `on*` attribute anywhere in the forest. -/
def cleanList : List Html → Bool
  | [] => true
  | Html.text _ :: rest => cleanList rest
  | Html.elem tag attrs children :: rest =>
    !decide (tag = "script") && cleanAttrs attrs && cleanList children && cleanList rest
termination_by l => sizeOf l
decreasing_by all_goals (simp_wf; try omega)

/-- Function `renderMarkdown` from `markdown.ts`: empty input short-circuits to the
empty output, otherwise the HTML produced by `marked.parse` (the vendor
parser, a parameter here) is sanitized. -/
def renderMarkdown (parse : Str → List Html) (text : Str) : List Html :=
  if text.isEmpty then [] else sanitizeList (parse text)

/-! ### Search-result highlighting (`HighlightedText` in the search overlay) -/

/-- The step `query.replace(/['"]/g, "")`. -/
def removeQuotes (s : Str) : Str := s.filter (fun c => !(c = '\'' || c = '"'))

/-- The step `split(/\s+/)`, modelled as splitting at every whitespace character: a
run of `n` whitespace characters yields `n - 1` extra empty parts compared
to JS, and the empty parts are removed by the `filter` in `queryTerms`
exactly as JS's are, so the resulting term lists coincide. -/
def splitOnWs : Str → List Str
  | [] => [[]]
  | c :: r =>
    match splitOnWs r with
    | [] => [[]]
    | h :: t => if isWsChar c then [] :: h :: t else (c :: h) :: t

/-- The highlight terms of a query: quotes removed, split on whitespace,
empty terms dropped (`terms` in `HighlightedText`). -/
def queryTerms (query : Str) : List Str :=
  (splitOnWs (removeQuotes query)).filter (fun t => !t.isEmpty)

/-- Case-insensitive "is a prefix of" — a match of one literal alternative
of the `gi` regex at the start of the string. -/
def ciPrefixOf : Str → Str → Bool
  | [], _ => true
  | _ :: _, [] => false
  | a :: ta, b :: tb => decide (a.toLower = b.toLower) && ciPrefixOf ta tb

/-- First alternative of the alternation `(t1|t2|...)` matching at the
start of `s` (regex alternatives are tried left to right). -/
def tryAt (terms : List Str) (s : Str) : Option Str :=
  terms.find? (fun t => ciPrefixOf t s)

/-- Leftmost match of the alternation in `s`: returns
`(prefix before the match, matched text, remainder)`. -/
def findFirst (terms : List Str) : Str → Option (Str × Str × Str)
  | [] => none
  | c :: r =>
    match tryAt terms (c :: r) with
    | some t => some ([], (c :: r).take t.length, (c :: r).drop t.length)
    | none =>
      match findFirst terms r with
      | none => none
      | some (pre, m, rest) => some (c :: pre, m, rest)

/-- The call `text.split(pattern)` for a pattern with one capture group around the
whole alternation: parts and captured separators alternate.  Fuelled so the
definition computes by reduction; since every term of `queryTerms q` is
nonempty, every match consumes at least one character and `s.length` fuel
suffices (`splitCapture`). -/
def splitCaptureF (q : Str) : Nat → Str → List Str
  | 0, s => [s]
  | fuel + 1, s =>
    match findFirst (queryTerms q) s with
    | none => [s]
    | some (pre, m, rest) => pre :: m :: splitCaptureF q fuel rest

def splitCapture (q s : Str) : List Str := splitCaptureF q s.length s

/-- The call `pattern.test(part)` for the shared global (`g`) case-insensitive
regex: JS searches from `lastIndex`, advancing it to the end of the match
on success and resetting it to 0 on failure.  Returns the test result and
the new `lastIndex`. -/
def jsTest (q : Str) (lastIndex : Nat) (s : Str) : Bool × Nat :=
  match findFirst (queryTerms q) (s.drop lastIndex) with
  | none => (false, 0)
  | some (pre, m, _) => (true, lastIndex + pre.length + m.length)

/-- The render step `parts.map((part, i) => pattern.test(part) ? highlighted : plain)`,
threading the mutable `lastIndex` of the shared regex through the calls.
Each part is paired with its highlight flag. -/
def renderParts (q : Str) : List Str → Nat → List (Str × Bool)
  | [], _ => []
  | p :: ps, li =>
    let r := jsTest q li p
    (p, r.1) :: renderParts q ps r.2

/-- Component `HighlightedText`: the list of rendered parts with their highlight
flags.  A blank query or an empty term list renders the whole text plain. -/
def highlightedText (text query : Str) : List (Str × Bool) :=
  if jsTrim query = [] then [(text, false)]
  else if (queryTerms query).isEmpty then [(text, false)]
  else renderParts query (splitCapture query text) 0

/-- Term `t` occurs case-insensitively somewhere in the string. -/
def ciOccurs (t : Str) : Str → Bool
  | [] => ciPrefixOf t []
  | c :: r => ciPrefixOf t (c :: r) || ciOccurs t r

/-- Some term of the query occurs case-insensitively in `s` — the
specification of "part matches the pattern". -/
def anyTermOccurs (q : Str) (s : Str) : Bool :=
  (queryTerms q).any (fun t => ciOccurs t s)

/-- A live (not soft-deleted) sample message row. -/
def liveRow : MessageRow :=
  { id := "m1", channel_id := "c1", body := "hello world", created_at := "2024-01-01",
    deleted_at := none, starred_at := some "2024-01-03" }

/-- A soft-deleted sample message row. -/
def softDeletedRow : MessageRow :=
  { id := "m2", channel_id := "c1", body := "old note", created_at := "2024-01-02",
    deleted_at := some "2024-01-05", starred_at := none }

/-! ## Theorems -/

theorem mem_insertBy {α : Type} (le : α → α → Bool) (a x : α) (l : List α) :
    x ∈ insertBy le a l ↔ x = a ∨ x ∈ l := by
  induction l with
  | nil => simp [insertBy]
  | cons b t ih =>
    simp only [insertBy]
    split
    · simp
    · simp only [List.mem_cons, ih]
      tauto

theorem mem_sortBy {α : Type} (le : α → α → Bool) (x : α) (l : List α) :
    x ∈ sortBy le l ↔ x ∈ l := by
  induction l with
  | nil => simp [sortBy]
  | cons a t ih => simp [sortBy, mem_insertBy, ih]

theorem getAttr_some_append {l : List (String × String)} {n : String} {v : String}
    (l' : List (String × String)) (h : getAttr l n = some v) :
    getAttr (l ++ l') n = some v := by
  induction l with
  | nil => simp [getAttr] at h
  | cons p t ih =>
    by_cases hp : p.1 = n
    · simp only [getAttr, if_pos hp] at h
      simp [getAttr, hp, h]
    · simp only [getAttr, if_neg hp] at h
      simp [getAttr, hp, ih h]

theorem getAttr_none_append {l : List (String × String)} {n : String}
    (l' : List (String × String)) (h : getAttr l n = none) :
    getAttr (l ++ l') n = getAttr l' n := by
  induction l with
  | nil => simp
  | cons p t ih =>
    by_cases hp : p.1 = n
    · simp [getAttr, hp] at h
    · simp only [getAttr, if_neg hp] at h
      simp [getAttr, hp, ih h]

theorem getAttr_none_of_not_hasAttrKey {l : List (String × String)} {n : String}
    (h : hasAttrKey l n = false) : getAttr l n = none := by
  induction l with
  | nil => rfl
  | cons p t ih =>
    have hp : ¬ p.1 = n := by
      intro hc
      simp [hasAttrKey, hc] at h
    have ht : hasAttrKey t n = false := by simpa [hasAttrKey, hp] using h
    simp [getAttr, hp, ih ht]

theorem getAttr_setAttr_self (a : List (String × String)) (n v : String) :
    getAttr (setAttr a n v) n = some v := by
  have hmap : ∀ l : List (String × String), hasAttrKey l n = true →
      getAttr (l.map (fun p => if p.1 = n then (n, v) else p)) n = some v := by
    intro l hl
    induction l with
    | nil => simp [hasAttrKey] at hl
    | cons p t ih =>
      by_cases hp : p.1 = n
      · simp [getAttr, hp]
      · have ht : hasAttrKey t n = true := by simpa [hasAttrKey, hp] using hl
        simp [getAttr, hp, ih ht]
  by_cases h : hasAttrKey a n = true
  · rw [setAttr, if_pos h]
    exact hmap a h
  · rw [setAttr, if_neg h]
    rw [getAttr_none_append _ (getAttr_none_of_not_hasAttrKey (by simpa using h))]
    simp [getAttr]

theorem getAttr_map_set {n m v : String} (h : m ≠ n) (t : List (String × String)) :
    getAttr (t.map (fun p => if p.1 = n then (n, v) else p)) m = getAttr t m := by
  induction t with
  | nil => rfl
  | cons p t ih =>
    by_cases hp : p.1 = n
    · have h1 : ¬ ((n : String) = m) := fun hc => h hc.symm
      have h2 : ¬ (p.1 = m) := by rw [hp]; exact h1
      simp only [List.map_cons, if_pos hp, getAttr, if_neg h1, if_neg h2, ih]
    · by_cases hm : p.1 = m
      · simp only [List.map_cons, if_neg hp, getAttr, if_pos hm]
      · simp only [List.map_cons, if_neg hp, getAttr, if_neg hm, ih]

theorem getAttr_setAttr_ne (a : List (String × String)) {n m : String} (v : String)
    (h : m ≠ n) : getAttr (setAttr a n v) m = getAttr a m := by
  rw [setAttr]
  split
  · exact getAttr_map_set h a
  · by_cases hm : getAttr a m = none
    · rw [getAttr_none_append _ hm, hm]
      have h1 : ¬ ((n : String) = m) := fun hc => h hc.symm
      simp [getAttr, h1]
    · rcases Option.ne_none_iff_exists'.mp hm with ⟨v', hv⟩
      rw [getAttr_some_append _ hv, hv]

theorem getAttr_removeAttr_self (a : List (String × String)) (n : String) :
    getAttr (removeAttr a n) n = none := by
  induction a with
  | nil => rfl
  | cons p t ih =>
    by_cases hp : p.1 = n
    · simpa [removeAttr, hp] using ih
    · simpa [removeAttr, getAttr, hp] using ih

theorem getAttr_removeAttr_ne (a : List (String × String)) {n m : String}
    (h : m ≠ n) : getAttr (removeAttr a n) m = getAttr a m := by
  induction a with
  | nil => rfl
  | cons p t ih =>
    by_cases hp : p.1 = n
    · have h2 : ¬ (p.1 = m) := by rw [hp]; exact fun hc => h hc.symm
      have lhs : removeAttr (p :: t) n = removeAttr t n := by
        simp [removeAttr, List.filter_cons, hp]
      rw [lhs, ih, getAttr, if_neg h2]
    · have lhs : removeAttr (p :: t) n = p :: removeAttr t n := by
        simp [removeAttr, List.filter_cons, hp]
      rw [lhs]
      by_cases hm : p.1 = m
      · simp [getAttr, hm]
      · simp [getAttr, hm, ih]

theorem jsStartsWith_https_hash (s : Str) :
    jsStartsWith (str "https://" ++ s) (str "#") = false := rfl

theorem jsStartsWith_https_slash (s : Str) :
    jsStartsWith (str "https://" ++ s) (str "/") = false := rfl

/-- C2: `renderer.link` prepends an explicit `https://` scheme to a bare
domain-like target (no scheme, not starting with `#` or `/`, containing a
dot or starting with `www`) and marks it `target="_blank"
rel="noopener noreferrer"`; a target starting with `#` or `/` is emitted
unchanged with no target attribute.  The `afterSanitizeAttributes` hook
preserves this after sanitization: internal hrefs lose `target`/`rel`,
external ones carry `target="_blank" rel="noopener noreferrer"`, and the
href itself is never altered.  Concretely, `[Link](google.com)` renders
`<a href="https://google.com" target="_blank" rel="noopener noreferrer">Link</a>`
and `[Home](/home)` renders `<a href="/home">Home</a>`. -/
theorem rendererLink_url_handling (href : Str) (title : Option Str) (text : Str) :
    (jsStartsWith href (str "#") = false → jsStartsWith href (str "/") = false →
      hasProtocol href = false →
      (href.contains '.' || jsStartsWith href (str "www")) = true →
      rendererLink href title text =
        str "<a href=\"" ++ (str "https://" ++ href) ++ str "\"" ++
          str " target=\"_blank\" rel=\"noopener noreferrer\"" ++ titleAttrOf title ++
          str ">" ++ text ++ str "</a>") ∧
    ((jsStartsWith href (str "#") = true ∨ jsStartsWith href (str "/") = true) →
      rendererLink href title text =
        str "<a href=\"" ++ href ++ str "\"" ++ titleAttrOf title ++ str ">" ++ text ++
          str "</a>") ∧
    (∀ attrs : List (String × String),
      (strStartsWith ((getAttr attrs "href").getD "") "#" = true ∨
        strStartsWith ((getAttr attrs "href").getD "") "/" = true) →
      getAttr (afterSanitizeAttributes "a" attrs) "target" = none ∧
      getAttr (afterSanitizeAttributes "a" attrs) "rel" = none ∧
      getAttr (afterSanitizeAttributes "a" attrs) "href" = getAttr attrs "href") ∧
    (∀ attrs : List (String × String),
      strStartsWith ((getAttr attrs "href").getD "") "#" = false →
      strStartsWith ((getAttr attrs "href").getD "") "/" = false →
      getAttr (afterSanitizeAttributes "a" attrs) "target" = some "_blank" ∧
      getAttr (afterSanitizeAttributes "a" attrs) "rel" = some "noopener noreferrer" ∧
      getAttr (afterSanitizeAttributes "a" attrs) "href" = getAttr attrs "href") ∧
    rendererLink (str "google.com") none (str "Link") =
      str "<a href=\"https://google.com\" target=\"_blank\" rel=\"noopener noreferrer\">Link</a>" ∧
    rendererLink (str "/home") none (str "Home") = str "<a href=\"/home\">Home</a>" := by
  refine ⟨?_, ?_, ?_, ?_, by decide, by decide⟩
  · intro h1 h2 h3 h4
    have hc : '.' ∈ href ∨ jsStartsWith href (str "www") = true := by simpa using h4
    simp [rendererLink, h1, h2, h3, hc, jsStartsWith_https_hash,
      jsStartsWith_https_slash]
  · intro h
    have hint : (jsStartsWith href (str "#") || jsStartsWith href (str "/")) = true := by
      rcases h with h | h <;> simp [h]
    simp [rendererLink, hint]
  · intro attrs h
    have hint : (strStartsWith ((getAttr attrs "href").getD "") "#" ||
        strStartsWith ((getAttr attrs "href").getD "") "/") = true := by
      rcases h with h | h <;> simp [h]
    have harm : afterSanitizeAttributes "a" attrs =
        removeAttr (removeAttr attrs "target") "rel" := by
      simp [afterSanitizeAttributes, hint]
    rw [harm]
    refine ⟨?_, ?_, ?_⟩
    · rw [getAttr_removeAttr_ne _ (by decide), getAttr_removeAttr_self]
    · rw [getAttr_removeAttr_self]
    · rw [getAttr_removeAttr_ne _ (by decide), getAttr_removeAttr_ne _ (by decide)]
  · intro attrs h1 h2
    have harm : afterSanitizeAttributes "a" attrs =
        setAttr (setAttr attrs "target" "_blank") "rel" "noopener noreferrer" := by
      simp [afterSanitizeAttributes, h1, h2]
    rw [harm]
    refine ⟨?_, ?_, ?_⟩
    · rw [getAttr_setAttr_ne _ _ (by decide), getAttr_setAttr_self]
    · rw [getAttr_setAttr_self]
    · rw [getAttr_setAttr_ne _ _ (by decide), getAttr_setAttr_ne _ _ (by decide)]

/-- C2 (witness): concrete application — a bare domain gets the scheme and
the new-tab attributes, a root-relative path stays untouched, and the hook
does the same on sanitized anchors. -/
theorem rendererLink_url_handling_witness :
    rendererLink (str "example.com") none (str "x") =
      str "<a href=\"" ++ (str "https://" ++ str "example.com") ++ str "\"" ++
        str " target=\"_blank\" rel=\"noopener noreferrer\"" ++ titleAttrOf none ++
        str ">" ++ str "x" ++ str "</a>" ∧
    rendererLink (str "#sec") none (str "y") =
      str "<a href=\"" ++ str "#sec" ++ str "\"" ++ titleAttrOf none ++ str ">" ++
        str "y" ++ str "</a>" ∧
    getAttr (afterSanitizeAttributes "a" [("href", "/home"), ("target", "_blank")])
      "target" = none ∧
    getAttr (afterSanitizeAttributes "a" [("href", "https://x.com")]) "target" =
      some "_blank" := by
  have h1 := rendererLink_url_handling (str "example.com") none (str "x")
  have h2 := rendererLink_url_handling (str "#sec") none (str "y")
  refine ⟨h1.1 (by decide) (by decide) (by decide) (by decide), ?_, ?_, ?_⟩
  · exact h2.2.1 (Or.inl (by decide))
  · exact (h1.2.2.1 [("href", "/home"), ("target", "_blank")] (Or.inr (by decide))).1
  · exact (h1.2.2.2.1 [("href", "https://x.com")] (by decide) (by decide)).1

/-- C4: `renderer.code` wraps a fenced code block in
`<pre><code class="hljs language-L">` with the per-language highlight of
the body when the tag `L` is recognized by highlight.js, and in
`<pre><code class="hljs language-plaintext">` with the auto-detect
highlight when the tag is unrecognized, empty or absent. -/
theorem rendererCode_highlighting (g : Str → Bool) (hl : Str → Str → Str)
    (ha : Str → Str) (text l : Str) :
    (l ≠ [] → g l = true →
      rendererCode g hl ha text (some l) =
        str "<pre><code class=\"hljs " ++ (str "language-" ++ l) ++ str "\">" ++
          hl l text ++ str "</code></pre>") ∧
    ((l = [] ∨ g l = false) →
      rendererCode g hl ha text (some l) =
        str "<pre><code class=\"hljs " ++ str "language-plaintext" ++ str "\">" ++
          ha text ++ str "</code></pre>") ∧
    rendererCode g hl ha text none =
      str "<pre><code class=\"hljs " ++ str "language-plaintext" ++ str "\">" ++
        ha text ++ str "</code></pre>" := by
  refine ⟨?_, ?_, rfl⟩
  · intro hne hg
    have hempty : l.isEmpty = false := by
      cases l
      · exact absurd rfl hne
      · rfl
    simp [rendererCode, hempty, hg]
  · intro h
    rcases h with h | h
    · subst h
      simp [rendererCode]
    · simp [rendererCode, h]

/-- C4 (witness): concrete application with a recognizer that accepts only
`js`: a `js` block is tagged with its language and per-language highlight,
a `zz` block and an untagged block fall back to plaintext auto-detection. -/
theorem rendererCode_highlighting_witness :
    rendererCode (fun t => decide (t = str "js")) (fun _ t => t) (fun t => t)
        (str "let x") (some (str "js")) =
      str "<pre><code class=\"hljs " ++ (str "language-" ++ str "js") ++ str "\">" ++
        str "let x" ++ str "</code></pre>" ∧
    rendererCode (fun t => decide (t = str "js")) (fun _ t => t) (fun t => t)
        (str "let x") (some (str "zz")) =
      str "<pre><code class=\"hljs " ++ str "language-plaintext" ++ str "\">" ++
        str "let x" ++ str "</code></pre>" ∧
    rendererCode (fun t => decide (t = str "js")) (fun _ t => t) (fun t => t)
        (str "let x") none =
      str "<pre><code class=\"hljs " ++ str "language-plaintext" ++ str "\">" ++
        str "let x" ++ str "</code></pre>" := by
  have h1 := rendererCode_highlighting (fun t => decide (t = str "js"))
    (fun _ t => t) (fun t => t) (str "let x") (str "js")
  have h2 := rendererCode_highlighting (fun t => decide (t = str "js"))
    (fun _ t => t) (fun t => t) (str "let x") (str "zz")
  exact ⟨h1.1 (by decide) (by decide), h2.2.1 (Or.inr (by decide)), h2.2.2⟩

theorem hasAttrKey_append (l l' : List (String × String)) (n : String) :
    hasAttrKey (l ++ l') n = (hasAttrKey l n || hasAttrKey l' n) := by
  induction l with
  | nil => simp [hasAttrKey]
  | cons p t ih => simp [hasAttrKey, ih, Bool.or_assoc]

theorem not_hasAttrKey_iff (l : List (String × String)) (n : String) :
    hasAttrKey l n = false ↔ ∀ p ∈ l, p.1 ≠ n := by
  induction l with
  | nil => simp [hasAttrKey]
  | cons p t ih => simp [hasAttrKey, ih]

theorem hasAttrKey_setAttr_self (a : List (String × String)) (n v : String) :
    hasAttrKey (setAttr a n v) n = true := by
  rw [setAttr]
  split
  · rename_i h
    induction a with
    | nil => simp [hasAttrKey] at h
    | cons p t ih =>
      by_cases hp : p.1 = n
      · simp [hasAttrKey, hp]
      · have ht : hasAttrKey t n = true := by simpa [hasAttrKey, hp] using h
        simp [hasAttrKey, hp, ih ht]
  · simp [hasAttrKey_append, hasAttrKey]

theorem hasAttrKey_map_set {n m v : String} (h1 : ¬ ((n : String) = m))
    (t : List (String × String)) :
    hasAttrKey (t.map (fun p => if p.1 = n then (n, v) else p)) m = hasAttrKey t m := by
  induction t with
  | nil => rfl
  | cons p t ih =>
    by_cases hp : p.1 = n
    · have h2 : ¬ (p.1 = m) := by rw [hp]; exact h1
      simp [hasAttrKey, hp, h1, h2, ih]
    · simp [hasAttrKey, hp, ih]

theorem hasAttrKey_setAttr_ne (a : List (String × String)) {n m : String} (v : String)
    (h : m ≠ n) : hasAttrKey (setAttr a n v) m = hasAttrKey a m := by
  have h1 : ¬ ((n : String) = m) := fun hc => h hc.symm
  rw [setAttr]
  split
  · exact hasAttrKey_map_set h1 a
  · simp [hasAttrKey_append, hasAttrKey, h1]

theorem hasAttrKey_removeAttr_self (a : List (String × String)) (n : String) :
    hasAttrKey (removeAttr a n) n = false := by
  induction a with
  | nil => rfl
  | cons p t ih =>
    by_cases hp : p.1 = n
    · simpa [removeAttr, List.filter_cons, hp] using ih
    · simpa [removeAttr, List.filter_cons, hasAttrKey, hp] using ih

theorem hasAttrKey_removeAttr_ne (a : List (String × String)) {n m : String}
    (h : m ≠ n) : hasAttrKey (removeAttr a n) m = hasAttrKey a m := by
  have h1 : ¬ ((n : String) = m) := fun hc => h hc.symm
  induction a with
  | nil => rfl
  | cons p t ih =>
    by_cases hp : p.1 = n
    · have h2 : ¬ (p.1 = m) := by rw [hp]; exact h1
      simp [removeAttr, List.filter_cons, hasAttrKey, hp, h2, h1] at ih ⊢
      exact ih
    · simp [removeAttr, List.filter_cons, hasAttrKey, hp] at ih ⊢
      rw [ih]

theorem map_set_eq_self {n v : String} (a : List (String × String))
    (h : a.all (fun p => !decide (p.1 = n) || decide (p.2 = v)) = true) :
    a.map (fun p => if p.1 = n then (n, v) else p) = a := by
  induction a with
  | nil => rfl
  | cons p t ih =>
    rw [List.all_cons, Bool.and_eq_true] at h
    obtain ⟨hp, ht⟩ := h
    by_cases hk : p.1 = n
    · have hv : p.2 = v := by simpa [hk] using hp
      have hfix : (if p.1 = n then (n, v) else p) = p := by
        rw [if_pos hk, ← hk, ← hv]
      rw [List.map_cons, hfix, ih ht]
    · simp [hk, ih ht]

theorem setAttr_eq_self {n v : String} (a : List (String × String))
    (hk : hasAttrKey a n = true)
    (h : a.all (fun p => !decide (p.1 = n) || decide (p.2 = v)) = true) :
    setAttr a n v = a := by
  rw [setAttr, if_pos hk]
  exact map_set_eq_self a h

theorem removeAttr_eq_self {n : String} (a : List (String × String))
    (hk : hasAttrKey a n = false) : removeAttr a n = a := by
  apply List.filter_eq_self.mpr
  intro p hp
  simpa using (not_hasAttrKey_iff a n).mp hk p hp

theorem setAttr_keyAll_self (a : List (String × String)) (n v : String) :
    (setAttr a n v).all (fun p => !decide (p.1 = n) || decide (p.2 = v)) = true := by
  rw [setAttr]
  split
  · rw [List.all_eq_true]
    intro x hx
    rcases List.mem_map.mp hx with ⟨p, _, rfl⟩
    by_cases hp : p.1 = n <;> simp [hp]
  · rename_i h
    rw [List.all_append, Bool.and_eq_true]
    refine ⟨?_, by simp⟩
    rw [List.all_eq_true]
    intro p hp
    have := (not_hasAttrKey_iff a n).mp (by simpa using h) p hp
    simp [this]

theorem setAttr_keyAll_ne {m w : String} (a : List (String × String)) (n v : String)
    (hnm : n ≠ m)
    (h : a.all (fun p => !decide (p.1 = m) || decide (p.2 = w)) = true) :
    (setAttr a n v).all (fun p => !decide (p.1 = m) || decide (p.2 = w)) = true := by
  rw [setAttr]
  split
  · rw [List.all_eq_true]
    intro x hx
    rcases List.mem_map.mp hx with ⟨p, hp, rfl⟩
    by_cases hk : p.1 = n
    · simp [hk, hnm]
    · simpa [hk] using List.all_eq_true.mp h p hp
  · rw [List.all_append, Bool.and_eq_true]
    exact ⟨h, by simp [hnm]⟩

theorem setAttr_all_allowed {n v : String} (a : List (String × String))
    (hn : attrAllowed n = true) (h : a.all (fun p => attrAllowed p.1) = true) :
    (setAttr a n v).all (fun p => attrAllowed p.1) = true := by
  rw [setAttr]
  split
  · rw [List.all_eq_true]
    intro x hx
    rcases List.mem_map.mp hx with ⟨p, hp, rfl⟩
    by_cases hk : p.1 = n
    · simp [hk, hn]
    · simpa [hk] using List.all_eq_true.mp h p hp
  · rw [List.all_append, Bool.and_eq_true]
    exact ⟨h, by simp [hn]⟩

theorem all_of_all_filter {α : Type} (P q : α → Bool) (l : List α)
    (h : l.all P = true) : (l.filter q).all P = true := by
  rw [List.all_eq_true] at h ⊢
  intro x hx
  exact h x (List.mem_filter.mp hx).1

theorem removeAttr_all_allowed {n : String} (a : List (String × String))
    (h : a.all (fun p => attrAllowed p.1) = true) :
    (removeAttr a n).all (fun p => attrAllowed p.1) = true :=
  all_of_all_filter _ _ a h

theorem filterAttrs_all_allowed (a : List (String × String)) :
    (filterAttrs a).all (fun p => attrAllowed p.1) = true := by
  rw [List.all_eq_true]
  intro p hp
  exact (List.mem_filter.mp hp).2

theorem hook_all_allowed (tag : String) (a : List (String × String))
    (h : a.all (fun p => attrAllowed p.1) = true) :
    (afterSanitizeAttributes tag a).all (fun p => attrAllowed p.1) = true := by
  by_cases htag : tag = "a"
  · by_cases hint : (strStartsWith ((getAttr a "href").getD "") "#" ||
        strStartsWith ((getAttr a "href").getD "") "/") = true
    · have hB : afterSanitizeAttributes tag a =
          removeAttr (removeAttr a "target") "rel" := by
        simp [afterSanitizeAttributes, htag, hint]
      rw [hB]
      exact removeAttr_all_allowed _ (removeAttr_all_allowed _ h)
    · have hB : afterSanitizeAttributes tag a =
          setAttr (setAttr a "target" "_blank") "rel" "noopener noreferrer" := by
        simp [afterSanitizeAttributes, htag, hint]
      rw [hB]
      exact setAttr_all_allowed _ (by decide) (setAttr_all_allowed _ (by decide) h)
  · simpa [afterSanitizeAttributes, htag] using h

theorem filterAttrs_of_all_allowed (a : List (String × String))
    (h : a.all (fun p => attrAllowed p.1) = true) : filterAttrs a = a := by
  apply List.filter_eq_self.mpr
  intro p hp
  exact List.all_eq_true.mp h p hp

theorem hook_getAttr_href (tag : String) (a : List (String × String)) :
    getAttr (afterSanitizeAttributes tag a) "href" = getAttr a "href" := by
  by_cases htag : tag = "a"
  · by_cases hint : (strStartsWith ((getAttr a "href").getD "") "#" ||
        strStartsWith ((getAttr a "href").getD "") "/") = true
    · have hB : afterSanitizeAttributes tag a =
          removeAttr (removeAttr a "target") "rel" := by
        simp [afterSanitizeAttributes, htag, hint]
      rw [hB, getAttr_removeAttr_ne _ (by decide), getAttr_removeAttr_ne _ (by decide)]
    · have hB : afterSanitizeAttributes tag a =
          setAttr (setAttr a "target" "_blank") "rel" "noopener noreferrer" := by
        simp [afterSanitizeAttributes, htag, hint]
      rw [hB, getAttr_setAttr_ne _ _ (by decide), getAttr_setAttr_ne _ _ (by decide)]
  · simp [afterSanitizeAttributes, htag]

theorem hook_idem (tag : String) (a : List (String × String)) :
    afterSanitizeAttributes tag (afterSanitizeAttributes tag a) =
      afterSanitizeAttributes tag a := by
  by_cases htag : tag = "a"
  · subst htag
    have hhref : getAttr (afterSanitizeAttributes "a" a) "href" = getAttr a "href" :=
      hook_getAttr_href "a" a
    by_cases hint : (strStartsWith ((getAttr a "href").getD "") "#" ||
        strStartsWith ((getAttr a "href").getD "") "/") = true
    · have hB : afterSanitizeAttributes "a" a =
          removeAttr (removeAttr a "target") "rel" := by
        simp [afterSanitizeAttributes, hint]
      rw [hB] at hhref ⊢
      have h1 : hasAttrKey (removeAttr (removeAttr a "target") "rel") "target" = false := by
        rw [hasAttrKey_removeAttr_ne _ (by decide), hasAttrKey_removeAttr_self]
      have h2 : hasAttrKey (removeAttr (removeAttr a "target") "rel") "rel" = false :=
        hasAttrKey_removeAttr_self _ _
      simp only [afterSanitizeAttributes, if_pos rfl, hhref, hint, Bool.not_true,
        ite_false, if_false]
      rw [removeAttr_eq_self _ h1, removeAttr_eq_self _ h2]
      simp
    · have hB : afterSanitizeAttributes "a" a =
          setAttr (setAttr a "target" "_blank") "rel" "noopener noreferrer" := by
        simp [afterSanitizeAttributes, hint]
      rw [hB] at hhref ⊢
      have hk1 : hasAttrKey
          (setAttr (setAttr a "target" "_blank") "rel" "noopener noreferrer")
          "target" = true := by
        rw [hasAttrKey_setAttr_ne _ _ (by decide), hasAttrKey_setAttr_self]
      have ha1 : (setAttr (setAttr a "target" "_blank") "rel" "noopener noreferrer").all
          (fun p => !decide (p.1 = "target") || decide (p.2 = "_blank")) = true :=
        setAttr_keyAll_ne _ _ _ (by decide) (setAttr_keyAll_self _ _ _)
      have hs1 : setAttr
          (setAttr (setAttr a "target" "_blank") "rel" "noopener noreferrer")
          "target" "_blank" =
          setAttr (setAttr a "target" "_blank") "rel" "noopener noreferrer" :=
        setAttr_eq_self _ hk1 ha1
      have hk2 : hasAttrKey
          (setAttr (setAttr a "target" "_blank") "rel" "noopener noreferrer")
          "rel" = true := hasAttrKey_setAttr_self _ _ _
      have ha2 : (setAttr (setAttr a "target" "_blank") "rel" "noopener noreferrer").all
          (fun p => !decide (p.1 = "rel") || decide (p.2 = "noopener noreferrer")) =
          true := setAttr_keyAll_self _ _ _
      simp only [afterSanitizeAttributes, if_pos rfl, hhref, hint, Bool.not_false,
        ite_true, if_true]
      rw [hs1]
      exact setAttr_eq_self _ hk2 ha2
  · simp [afterSanitizeAttributes, htag]

theorem attrAllowed_not_on (n : String) (h : attrAllowed n = true) :
    attrNameOn n = false := by
  unfold attrAllowed at h
  rw [Bool.and_eq_true] at h
  have h1 : ALLOWED_ATTR.contains n = true := h.1
  have hmem : n ∈ ALLOWED_ATTR := by simpa using h1
  fin_cases hmem <;> rfl

theorem cleanAttrs_of_all_allowed (a : List (String × String))
    (h : a.all (fun p => attrAllowed p.1) = true) : cleanAttrs a = true := by
  rw [cleanAttrs, List.all_eq_true]
  intro p hp
  simp [attrAllowed_not_on p.1 (List.all_eq_true.mp h p hp)]

theorem keepTag_ne_script {t : String} (h : keepTag t = true) : t ≠ "script" := by
  intro hc
  subst hc
  exact absurd h (by decide)

theorem cleanList_append (a b : List Html) :
    cleanList (a ++ b) = (cleanList a && cleanList b) := by
  induction a using cleanList.induct with
  | case1 => simp [cleanList]
  | case2 s rest ih => simp [cleanList, ih]
  | case3 tag attrs children rest ih1 ih2 =>
    simp [cleanList, ih2, Bool.and_assoc]

theorem sanitizeList_append (a b : List Html) :
    sanitizeList (a ++ b) = sanitizeList a ++ sanitizeList b := by
  induction a using sanitizeList.induct with
  | case1 => simp [sanitizeList]
  | case2 s rest ih => simp [sanitizeList, ih]
  | case3 tag attrs children rest hkeep ih1 ih2 =>
    simp [sanitizeList, hkeep, ih2]
  | case4 tag attrs children rest hkeep hfc ih =>
    have hfc2 : tag ∈ FORBID_CONTENTS := by simpa using hfc
    simp [sanitizeList, hkeep, hfc2, ih]
  | case5 tag attrs children rest hkeep hfc ih1 ih2 =>
    have hfc2 : tag ∉ FORBID_CONTENTS := by simpa using hfc
    simp [sanitizeList, hkeep, hfc2, ih1, ih2, List.append_assoc]

theorem sanitize_clean (l : List Html) : cleanList (sanitizeList l) = true := by
  induction l using sanitizeList.induct with
  | case1 => simp [sanitizeList, cleanList]
  | case2 s rest ih => simpa [sanitizeList, cleanList] using ih
  | case3 tag attrs children rest hkeep ih1 ih2 =>
    have hattrs : cleanAttrs (afterSanitizeAttributes tag (filterAttrs attrs)) = true :=
      cleanAttrs_of_all_allowed _ (hook_all_allowed _ _ (filterAttrs_all_allowed attrs))
    simp [sanitizeList, hkeep, cleanList, keepTag_ne_script hkeep, hattrs, ih1, ih2]
  | case4 tag attrs children rest hkeep hfc ih =>
    have hfc2 : tag ∈ FORBID_CONTENTS := by simpa using hfc
    simpa [sanitizeList, hkeep, hfc2] using ih
  | case5 tag attrs children rest hkeep hfc ih1 ih2 =>
    have hfc2 : tag ∉ FORBID_CONTENTS := by simpa using hfc
    simp [sanitizeList, hkeep, hfc2, cleanList_append, ih1, ih2]

/-- C1: for every input string, the HTML `renderMarkdown` returns contains
no `script` element and no attribute whose name starts with `on`
(`onclick`, `onerror`, `onload`, ...), at any nesting depth — whatever
forest the Markdown parser produces, sanitization leaves only allow-listed
tags (which exclude `script`) and allow-listed attributes (none of which
starts with `on`), and the link hook only adds `target`/`rel`. -/
theorem renderMarkdown_no_script_no_handlers (parse : Str → List Html) (text : Str) :
    cleanList (renderMarkdown parse text) = true := by
  rw [renderMarkdown]
  split
  · simp [cleanList]
  · exact sanitize_clean _

theorem sanitizeList_idem (l : List Html) :
    sanitizeList (sanitizeList l) = sanitizeList l := by
  induction l using sanitizeList.induct with
  | case1 => simp [sanitizeList]
  | case2 s rest ih => simp [sanitizeList, ih]
  | case3 tag attrs children rest hkeep ih1 ih2 =>
    have hall : (afterSanitizeAttributes tag (filterAttrs attrs)).all
        (fun p => attrAllowed p.1) = true :=
      hook_all_allowed _ _ (filterAttrs_all_allowed attrs)
    have hfa : filterAttrs (afterSanitizeAttributes tag (filterAttrs attrs)) =
        afterSanitizeAttributes tag (filterAttrs attrs) :=
      filterAttrs_of_all_allowed _ hall
    simp [sanitizeList, hkeep, hfa, hook_idem, ih1, ih2]
  | case4 tag attrs children rest hkeep hfc ih =>
    have hfc2 : tag ∈ FORBID_CONTENTS := by simpa using hfc
    simpa [sanitizeList, hkeep, hfc2] using ih
  | case5 tag attrs children rest hkeep hfc ih1 ih2 =>
    have hfc2 : tag ∉ FORBID_CONTENTS := by simpa using hfc
    simp [sanitizeList, hkeep, hfc2, sanitizeList_append, ih1, ih2]

/-- C3: sanitization is idempotent on `renderMarkdown`'s output —
re-sanitizing with the same `sanitizeOptions` (and the same registered
hook) returns the rendered HTML unchanged. -/
theorem renderMarkdown_sanitize_idem (parse : Str → List Html) (text : Str) :
    sanitizeList (renderMarkdown parse text) = renderMarkdown parse text := by
  rw [renderMarkdown]
  split
  · simp [sanitizeList]
  · exact sanitizeList_idem _

/-- C5 (counterexample): with an empty `referencedMessageIds` list every id
in it vacuously equals `sourceMessageId`, yet `createMessageReferences`
returns the validation error, not `{ data: [], error: null }`. -/
theorem createMessageReferences_empty_counterexample :
    ([] : List String).all (fun id => decide (id = "m1")) = true ∧
    (createMessageReferences none "m1" []).data ≠ some [] ∧
    (createMessageReferences none "m1" []).error ≠ none :=
  ⟨rfl, by decide, by decide⟩

/-- C5 (amended): `createMessageReferences` never sends a self-reference:
every record sent to `message_references` has `referenced_message_id`
different from the source id; when the source id is non-empty, the
referenced-id list is non-empty and every referenced id equals the source
id, nothing is inserted and `{ data: [], error: null }` is returned; when
the source id is empty or the list is empty, nothing is inserted and a
validation error is returned. -/
theorem createMessageReferences_no_self_reference (insertError : Option String)
    (src : String) (ids : List String) :
    (∀ r ∈ (createMessageReferences insertError src ids).inserted,
        r.referenced_message_id ≠ src) ∧
    (src ≠ "" → ids ≠ [] → (∀ id ∈ ids, id = src) →
        createMessageReferences insertError src ids =
          { data := some [], error := none, inserted := [] }) ∧
    ((src = "" ∨ ids = []) →
        (createMessageReferences insertError src ids).inserted = [] ∧
        (createMessageReferences insertError src ids).error ≠ none) := by
  refine ⟨?_, ?_, ?_⟩
  · intro r hr
    unfold createMessageReferences at hr
    split at hr
    · simp at hr
    · dsimp only at hr
      split at hr
      · simp at hr
      · have hmem : r ∈ (ids.filter (fun id => !decide (id = src))).map
            (fun refId =>
              ({ source_message_id := src, referenced_message_id := refId } : RefRecord)) := by
          split at hr <;> exact hr
        rcases List.mem_map.mp hmem with ⟨refId, hmemf, hrec⟩
        have hne : refId ≠ src := by simpa using (List.mem_filter.mp hmemf).2
        rw [← hrec]
        simpa using hne
  · intro hsrc hids hall
    have hfilter : ids.filter (fun id => !decide (id = src)) = [] :=
      List.filter_eq_nil_iff.mpr (fun id hid => by simp [hall id hid])
    unfold createMessageReferences
    rw [if_neg (by simp [hsrc, hids])]
    dsimp only
    rw [hfilter]
    rfl
  · intro h
    unfold createMessageReferences
    rw [if_pos (by rcases h with h | h <;> simp [h])]
    exact ⟨rfl, by simp⟩

/-- C5 (witness): concrete application — inserting a reference list that
consists only of the source id performs no insert and succeeds with empty
data. -/
theorem createMessageReferences_no_self_reference_witness :
    (∀ r ∈ (createMessageReferences none "m1" ["m1", "m1"]).inserted,
        r.referenced_message_id ≠ "m1") ∧
    createMessageReferences none "m1" ["m1", "m1"] =
      { data := some [], error := none, inserted := [] } := by
  have h := createMessageReferences_no_self_reference none "m1" ["m1", "m1"]
  exact ⟨h.1, h.2.1 (by decide) (by decide) (by decide)⟩

/-- C6 (counterexample): the channel-deletion attachment-cleanup lookup in
`Sidebar.handleDeleteChannel` filters only on `channel_id`, so a
soft-deleted message (non-null `deleted_at`) does appear in its result. -/
theorem sidebarCleanup_returns_soft_deleted :
    softDeletedRow ∈ sidebarCleanupQuery "c1" [softDeletedRow] ∧
    softDeletedRow.deleted_at ≠ none := by
  constructor
  · simp [sidebarCleanupQuery, softDeletedRow]
  · simp [softDeletedRow]

/-- C6 (amended): the channel view fetch / realtime re-fetch, the
full-text search and the starred-messages fetch all constrain `deleted_at`
to be null, so soft-deleted messages never appear in their results; the
channel-deletion attachment-cleanup lookup, however, filters only on
`channel_id` and returns soft-deleted messages of the channel as well. -/
theorem messages_read_paths_deleted_filter (c : String) (db : List MessageRow)
    (fts : MessageRow → Bool) (q : Str) (ch : Option String) :
    (∀ m ∈ fetchMessagesQuery c db, m.deleted_at = none) ∧
    (∀ m ∈ useMessageSearch fts q ch db, m.deleted_at = none) ∧
    (∀ m ∈ fetchStarredQuery db, m.deleted_at = none) ∧
    (∀ m, m ∈ sidebarCleanupQuery c db ↔ m ∈ db ∧ m.channel_id = c) := by
  refine ⟨?_, ?_, ?_, ?_⟩
  · intro m hm
    have := (List.mem_filter.mp ((mem_sortBy _ _ _).mp hm)).2
    simp only [Bool.and_eq_true, decide_eq_true_eq] at this
    exact this.2
  · intro m hm
    unfold useMessageSearch at hm
    split at hm
    · simp at hm
    · have hm' := (mem_sortBy _ _ _).mp (List.take_subset _ _ hm)
      have := (List.mem_filter.mp hm').2
      simp only [Bool.and_eq_true, decide_eq_true_eq] at this
      exact this.1.2
  · intro m hm
    have := (List.mem_filter.mp hm).2
    simp only [Bool.and_eq_true, decide_eq_true_eq] at this
    exact this.2
  · intro m
    rw [sidebarCleanupQuery, List.mem_filter]
    simp

/-- C6 (witness): concrete application — the live row of channel `c1`
surfaces in the channel fetch, the search and the starred fetch with a
null `deleted_at`, and is a member of the cleanup lookup result. -/
theorem messages_read_paths_deleted_filter_witness :
    liveRow.deleted_at = none ∧
    liveRow ∈ sidebarCleanupQuery "c1" [liveRow, softDeletedRow] := by
  have h := messages_read_paths_deleted_filter "c1" [liveRow, softDeletedRow]
    (fun _ => true) (str "hello") none
  exact ⟨h.1 liveRow (by decide), (h.2.2.2 liveRow).mpr (by decide)⟩

/-- C7: `handleDeleteMessage` and `handleEditMessage` first apply the
optimistic change to the local message list; when the backend update
errors they re-fetch, leaving the local list equal to the server's current
view (`fetchMessagesQuery`), and when it succeeds the optimistic list is
kept. -/
theorem optimistic_edit_delete_reconciles (db : List MessageRow) (c : String)
    (err : Bool) (st : List MessageRow × CacheMap) (id body : String) :
    (err = true →
      (handleDeleteMessage db c err st id).1 = fetchMessagesQuery c db ∧
      (handleEditMessage db c err st id body).1 = fetchMessagesQuery c db) ∧
    (err = false →
      (handleDeleteMessage db c err st id).1 =
        st.1.filter (fun m => !decide (m.id = id)) ∧
      (handleEditMessage db c err st id body).1 =
        st.1.map (fun m => if m.id = id then { m with body := body } else m)) := by
  constructor
  · rintro rfl
    exact ⟨rfl, rfl⟩
  · rintro rfl
    exact ⟨rfl, rfl⟩

/-- C7 (witness): concrete application — a failed delete of `m1` leaves
the list at the server view; a successful delete keeps the optimistic
removal. -/
theorem optimistic_edit_delete_reconciles_witness :
    (handleDeleteMessage [liveRow] "c1" true ([liveRow], fun _ => none) "m1").1 =
      fetchMessagesQuery "c1" [liveRow] ∧
    (handleDeleteMessage [liveRow] "c1" false ([liveRow], fun _ => none) "m1").1 =
      [liveRow].filter (fun m => !decide (m.id = "m1")) := by
  have h1 := optimistic_edit_delete_reconciles [liveRow] "c1" true
    ([liveRow], fun _ => none) "m1" "b"
  have h2 := optimistic_edit_delete_reconciles [liveRow] "c1" false
    ([liveRow], fun _ => none) "m1" "b"
  exact ⟨(h1.1 rfl).1, (h2.2 rfl).1⟩

/-- C8: when the session becomes null the cache effect replaces the whole
cache with an empty map; afterwards `getCachedChannel` returns none for
every channel id, and `updateCachedMessages` cannot create an entry. -/
theorem signout_clears_cache (session : Option Unit) (cache : CacheMap)
    (h : session = none) :
    (∀ id, getCachedChannel (signOutEffect session cache) id = none) ∧
    (∀ c msgs, updateCachedMessages c msgs (signOutEffect session cache) =
        signOutEffect session cache) := by
  subst h
  exact ⟨fun _ => rfl, fun _ _ => rfl⟩

/-- C8 (witness): concrete application at a non-empty cache. -/
theorem signout_clears_cache_witness :
    getCachedChannel
      (signOutEffect none (fun _ => some ⟨[liveRow], ⟨"c1", "general"⟩⟩)) "c1" = none ∧
    updateCachedMessages "c1" []
        (signOutEffect none (fun _ => some ⟨[liveRow], ⟨"c1", "general"⟩⟩)) =
      signOutEffect none (fun _ => some ⟨[liveRow], ⟨"c1", "general"⟩⟩) := by
  have h := signout_clears_cache none (fun _ => some ⟨[liveRow], ⟨"c1", "general"⟩⟩) rfl
  exact ⟨h.1 "c1", h.2 "c1" []⟩

/-- C10: `updateCachedMessages` only changes the `messages` field of the
entry for the given channel id: with no entry the cache is unchanged (no
entry is created); with an entry, the entry keeps its channel metadata and
every other key is untouched. -/
theorem updateCachedMessages_frame (cache : CacheMap) (c : String)
    (msgs : List MessageRow) :
    (cache c = none → updateCachedMessages c msgs cache = cache) ∧
    (∀ e, cache c = some e →
      updateCachedMessages c msgs cache c = some { messages := msgs, channel := e.channel } ∧
      ∀ k, k ≠ c → updateCachedMessages c msgs cache k = cache k) := by
  constructor
  · intro h
    unfold updateCachedMessages
    rw [h]
  · intro e h
    unfold updateCachedMessages
    rw [h]
    exact ⟨by simp, fun k hk => by simp [hk]⟩

/-- C10 (witness): concrete application — updating a missing channel is a
no-op, updating a present one replaces only its messages and leaves other
keys alone. -/
theorem updateCachedMessages_frame_witness :
    updateCachedMessages "c2" []
        (fun k => if k = "c1" then some ⟨[liveRow], ⟨"c1", "general"⟩⟩ else none) =
      (fun k => if k = "c1" then some ⟨[liveRow], ⟨"c1", "general"⟩⟩ else none) ∧
    updateCachedMessages "c1" []
        (fun k => if k = "c1" then some ⟨[liveRow], ⟨"c1", "general"⟩⟩ else none) "c1" =
      some ⟨[], ⟨"c1", "general"⟩⟩ ∧
    updateCachedMessages "c1" []
        (fun k => if k = "c1" then some ⟨[liveRow], ⟨"c1", "general"⟩⟩ else none) "c2" =
      (fun k => if k = "c1" then some ⟨[liveRow], ⟨"c1", "general"⟩⟩ else none) "c2" := by
  have h1 := updateCachedMessages_frame
    (fun k => if k = "c1" then some ⟨[liveRow], ⟨"c1", "general"⟩⟩ else none) "c2" []
  have h2 := updateCachedMessages_frame
    (fun k => if k = "c1" then some ⟨[liveRow], ⟨"c1", "general"⟩⟩ else none) "c1" []
  refine ⟨h1.1 (by simp), ?_, ?_⟩
  · exact (h2.2 ⟨[liveRow], ⟨"c1", "general"⟩⟩ (by simp)).1
  · exact (h2.2 ⟨[liveRow], ⟨"c1", "general"⟩⟩ (by simp)).2 "c2" (by simp)

theorem queryTerms_ne_nil {q : Str} : ∀ t ∈ queryTerms q, t ≠ [] := by
  intro t ht
  have := (List.mem_filter.mp ht).2
  simpa using this

theorem ciPrefixOf_length_le : ∀ {t s : Str}, ciPrefixOf t s = true → t.length ≤ s.length
  | [], _, _ => by simp
  | _ :: _, [], h => by simp [ciPrefixOf] at h
  | a :: ta, b :: tb, h => by
    rw [ciPrefixOf, Bool.and_eq_true] at h
    simpa using ciPrefixOf_length_le h.2

theorem ciPrefixOf_take : ∀ {t s : Str}, ciPrefixOf t s = true →
    ciPrefixOf t (s.take t.length) = true
  | [], _, _ => rfl
  | _ :: _, [], h => by simp [ciPrefixOf] at h
  | a :: ta, b :: tb, h => by
    rw [ciPrefixOf, Bool.and_eq_true] at h
    simpa [List.length_cons, List.take_succ_cons, ciPrefixOf, h.1]
      using ciPrefixOf_take h.2

theorem ciPrefixOf_append : ∀ {t p : Str} (u : Str), ciPrefixOf t p = true →
    ciPrefixOf t (p ++ u) = true
  | [], _, _, _ => rfl
  | _ :: _, [], _, h => by simp [ciPrefixOf] at h
  | a :: ta, b :: tb, u, h => by
    rw [ciPrefixOf, Bool.and_eq_true] at h
    simpa [ciPrefixOf, h.1] using ciPrefixOf_append u h.2

theorem ciOccurs_of_drop (t : Str) : ∀ (s : Str) (i : Nat),
    ciOccurs t (s.drop i) = true → ciOccurs t s = true
  | _, 0, h => by simpa using h
  | [], _ + 1, h => by simpa using h
  | c :: r, i + 1, h => by
    have := ciOccurs_of_drop t r i (by simpa using h)
    simp [ciOccurs, this]

theorem ciOccurs_head {t m : Str} (hm : m ≠ []) (h : ciPrefixOf t m = true) :
    ciOccurs t m = true := by
  cases m with
  | nil => exact absurd rfl hm
  | cons c r => simp [ciOccurs, h]

theorem ciOccurs_of_decomp {t m : Str} (rest : Str) (hm : m ≠ [])
    (h : ciPrefixOf t m = true) :
    ∀ pre : Str, ciOccurs t (pre ++ (m ++ rest)) = true
  | [] => by
    have h1 : ciPrefixOf t (m ++ rest) = true := ciPrefixOf_append rest h
    have h2 : m ++ rest ≠ [] := by
      cases m with
      | nil => exact absurd rfl hm
      | cons c r => simp
    simpa using ciOccurs_head h2 h1
  | c :: pre' => by
    have := ciOccurs_of_decomp rest hm h pre'
    simp [ciOccurs, this]

theorem tryAt_eq_none_iff (terms : List Str) (s : Str) :
    tryAt terms s = none ↔ ∀ t ∈ terms, ciPrefixOf t s = false := by
  rw [tryAt, List.find?_eq_none]
  constructor
  · intro h t ht
    simpa using h t ht
  · intro h t ht
    simp [h t ht]

theorem findFirst_eq_none {terms : List Str} (hne : ∀ t ∈ terms, t ≠ []) :
    ∀ s : Str, (findFirst terms s = none ↔ ∀ t ∈ terms, ciOccurs t s = false)
  | [] => by
    simp only [findFirst, true_iff]
    intro t ht
    cases htt : t with
    | nil => exact absurd htt (hne t ht)
    | cons a ta => rfl
  | c :: r => by
    rw [findFirst]
    cases htry : tryAt terms (c :: r) with
    | some t =>
      simp only [iff_false, reduceCtorEq, false_iff]
      intro hall
      have htryf : List.find? (fun t => ciPrefixOf t (c :: r)) terms = some t := by
        rw [tryAt] at htry
        exact htry
      have hpref : ciPrefixOf t (c :: r) = true := by
        simpa using List.find?_some htryf
      have hmem : t ∈ terms := List.mem_of_find?_eq_some htryf
      have : ciOccurs t (c :: r) = true := by simp [ciOccurs, hpref]
      rw [hall t hmem] at this
      exact Bool.false_ne_true this
    | none =>
      have hnot := (tryAt_eq_none_iff terms (c :: r)).mp htry
      cases hrec : findFirst terms r with
      | none =>
        have hall := (findFirst_eq_none hne r).mp hrec
        simp only [true_iff]
        intro t ht
        simp [ciOccurs, hnot t ht, hall t ht]
      | some x =>
        rcases x with ⟨pre, m, rest⟩
        simp only [iff_false, reduceCtorEq, false_iff]
        intro hall
        have : findFirst terms r = none := (findFirst_eq_none hne r).mpr ?_
        · rw [hrec] at this
          exact Option.some_ne_none _ this
        · intro t ht
          have h1 := hall t ht
          rw [ciOccurs] at h1
          exact (Bool.or_eq_false_iff.mp h1).2

theorem findFirst_decomp {terms : List Str} (hne : ∀ t ∈ terms, t ≠ []) :
    ∀ (s pre m rest : Str), findFirst terms s = some (pre, m, rest) →
      pre ++ (m ++ rest) = s ∧
      (∃ t ∈ terms, ciPrefixOf t m = true ∧ m ≠ []) ∧
      (∀ t ∈ terms, ciOccurs t pre = false)
  | [], pre, m, rest, h => by simp [findFirst] at h
  | c :: r, pre, m, rest, h => by
    rw [findFirst] at h
    cases htry : tryAt terms (c :: r) with
    | some t =>
      rw [htry] at h
      have htryf : List.find? (fun t => ciPrefixOf t (c :: r)) terms = some t := by
        rw [tryAt] at htry
        exact htry
      have hpref : ciPrefixOf t (c :: r) = true := by
        simpa using List.find?_some htryf
      have hmem : t ∈ terms := List.mem_of_find?_eq_some htryf
      obtain ⟨hpre, hm, hrest⟩ : pre = [] ∧ (c :: r).take t.length = m ∧
          (c :: r).drop t.length = rest := by
        have := h
        simp only [Option.some.injEq, Prod.mk.injEq] at this
        exact ⟨this.1.symm, this.2.1, this.2.2⟩
      subst hpre hm hrest
      refine ⟨by simp, ⟨t, hmem, ciPrefixOf_take hpref, ?_⟩, ?_⟩
      · cases htt : t with
        | nil => exact absurd htt (hne t hmem)
        | cons a ta => simp [htt]
      · intro t' ht'
        cases htt : t' with
        | nil => exact absurd htt (hne t' ht')
        | cons a ta => rfl
    | none =>
      rw [htry] at h
      cases hrec : findFirst terms r with
      | none => rw [hrec] at h; exact absurd h (by simp)
      | some x =>
        rcases x with ⟨pre', m', rest'⟩
        rw [hrec] at h
        obtain ⟨hpre, hm, hrest⟩ : pre = c :: pre' ∧ m = m' ∧ rest = rest' := by
          have h' := h.symm
          simpa using h'
        rw [hpre, hm, hrest]
        obtain ⟨hcat, hex, hfree⟩ := findFirst_decomp hne r pre' m' rest' hrec
        refine ⟨by simpa using hcat, hex, ?_⟩
        intro t ht
        rw [ciOccurs, Bool.or_eq_false_iff]
        refine ⟨?_, hfree t ht⟩
        cases hp : ciPrefixOf t (c :: pre')
        · rfl
        · exfalso
          have hext : ciPrefixOf t ((c :: pre') ++ (m' ++ rest')) = true :=
            ciPrefixOf_append _ hp
          rw [show (c :: pre') ++ (m' ++ rest') = c :: r by simpa using hcat] at hext
          have hfail := (tryAt_eq_none_iff terms (c :: r)).mp htry t ht
          rw [hfail] at hext
          exact Bool.false_ne_true hext

theorem findFirst_rest_length {terms : List Str} (hne : ∀ t ∈ terms, t ≠ [])
    {s pre m rest : Str} (h : findFirst terms s = some (pre, m, rest)) :
    rest.length < s.length := by
  obtain ⟨hcat, ⟨t, _, _, hm⟩, _⟩ := findFirst_decomp hne s pre m rest h
  have : pre.length + (m.length + rest.length) = s.length := by
    rw [← hcat]; simp
  have hmlen : 1 ≤ m.length := by
    cases m with
    | nil => exact absurd rfl hm
    | cons a ta => simp
  omega

theorem splitCaptureF_join (q : Str) : ∀ (fuel : Nat) (s : Str),
    s.length ≤ fuel → (splitCaptureF q fuel s).flatten = s
  | 0, s, _ => by simp [splitCaptureF]
  | fuel + 1, s, hfuel => by
    rw [splitCaptureF]
    cases h : findFirst (queryTerms q) s with
    | none => simp
    | some x =>
      rcases x with ⟨pre, m, rest⟩
      have hrest : rest.length < s.length :=
        findFirst_rest_length queryTerms_ne_nil h
      have ih := splitCaptureF_join q fuel rest (by omega)
      obtain ⟨hcat, _, _⟩ := findFirst_decomp queryTerms_ne_nil s pre m rest h
      simp only [List.flatten_cons]
      rw [ih]
      exact hcat

theorem anyTermOccurs_false {q s : Str}
    (h : ∀ t ∈ queryTerms q, ciOccurs t s = false) : anyTermOccurs q s = false := by
  rw [anyTermOccurs]
  cases hany : (queryTerms q).any (fun t => ciOccurs t s) with
  | false => rfl
  | true =>
    exfalso
    obtain ⟨t, ht, hocc⟩ := List.any_eq_true.mp hany
    rw [h t ht] at hocc
    exact Bool.false_ne_true hocc

theorem anyTermOccurs_true {q m : Str} (t : Str) (ht : t ∈ queryTerms q)
    (hp : ciPrefixOf t m = true) (hm : m ≠ []) : anyTermOccurs q m = true := by
  rw [anyTermOccurs]
  exact List.any_eq_true.mpr ⟨t, ht, ciOccurs_head hm hp⟩

theorem jsTest_of_no_occurrence {q p : Str} (li : Nat)
    (h : anyTermOccurs q p = false) : jsTest q li p = (false, 0) := by
  rw [jsTest]
  cases hff : findFirst (queryTerms q) (p.drop li) with
  | none => rfl
  | some x =>
    exfalso
    rcases x with ⟨pre, m, rest⟩
    obtain ⟨hcat, ⟨t, ht, hpref, hm⟩, _⟩ :=
      findFirst_decomp queryTerms_ne_nil _ pre m rest hff
    have hocc : ciOccurs t (p.drop li) = true := by
      rw [← hcat]
      exact ciOccurs_of_decomp rest hm hpref pre
    have hocc2 : ciOccurs t p = true := ciOccurs_of_drop t p li hocc
    have hco : anyTermOccurs q p = true := by
      rw [anyTermOccurs]
      exact List.any_eq_true.mpr ⟨t, ht, hocc2⟩
    rw [h] at hco
    exact Bool.false_ne_true hco

theorem jsTest_at_match {q m : Str} (t : Str) (ht : t ∈ queryTerms q)
    (hp : ciPrefixOf t m = true) (hm : m ≠ []) : (jsTest q 0 m).1 = true := by
  rw [jsTest]
  cases hff : findFirst (queryTerms q) (m.drop 0) with
  | none =>
    exfalso
    have hall := (findFirst_eq_none queryTerms_ne_nil _).mp hff
    have hocc : ciOccurs t (m.drop 0) = true := by
      simpa using ciOccurs_head hm hp
    rw [hall t ht] at hocc
    exact Bool.false_ne_true hocc
  | some x =>
    rcases x with ⟨pre, mm, rest⟩
    rfl

theorem renderParts_spec (q : Str) : ∀ (fuel : Nat) (s : Str) (li : Nat),
    s.length ≤ fuel →
    renderParts q (splitCaptureF q fuel s) li =
      (splitCaptureF q fuel s).map (fun p => (p, anyTermOccurs q p))
  | 0, s, li, hfuel => by
    have hs : s = [] := by
      cases s with
      | nil => rfl
      | cons c r => simp at hfuel
    subst hs
    have hany : anyTermOccurs q [] = false := by
      apply anyTermOccurs_false
      intro t ht
      cases htt : t with
      | nil => exact absurd htt (queryTerms_ne_nil t ht)
      | cons a ta => rfl
    have hjs : jsTest q li [] = (false, 0) := jsTest_of_no_occurrence li hany
    simp [splitCaptureF, renderParts, hjs, hany]
  | fuel + 1, s, li, hfuel => by
    rw [splitCaptureF]
    cases hff : findFirst (queryTerms q) s with
    | none =>
      have hall := (findFirst_eq_none queryTerms_ne_nil s).mp hff
      have hany : anyTermOccurs q s = false := anyTermOccurs_false hall
      have hjs : jsTest q li s = (false, 0) := jsTest_of_no_occurrence li hany
      simp [renderParts, hjs, hany]
    | some x =>
      rcases x with ⟨pre, m, rest⟩
      obtain ⟨hcat, ⟨t, ht, hpref, hm⟩, hfree⟩ :=
        findFirst_decomp queryTerms_ne_nil s pre m rest hff
      have hpreany : anyTermOccurs q pre = false := anyTermOccurs_false hfree
      have hjs1 : jsTest q li pre = (false, 0) := jsTest_of_no_occurrence li hpreany
      have hmany : anyTermOccurs q m = true := anyTermOccurs_true t ht hpref hm
      have hjs2 : (jsTest q 0 m).1 = true := jsTest_at_match t ht hpref hm
      have hrest : rest.length < s.length :=
        findFirst_rest_length queryTerms_ne_nil hff
      have ih := renderParts_spec q fuel rest (jsTest q 0 m).2 (by omega)
      simp [renderParts, hjs1, hjs2, hmany, hpreany, ih]

theorem allWs_of_jsTrim_nil {q : Str} (h : jsTrim q = []) :
    ∀ c ∈ q, isWsChar c = true := by
  rw [jsTrim, List.reverse_eq_nil_iff] at h
  have h2 := List.dropWhile_eq_nil_iff.mp h
  have h3 : ∀ c ∈ q.dropWhile isWsChar, isWsChar c = true := by
    intro c hc
    exact h2 c (List.mem_reverse.mpr hc)
  intro c hc
  rw [← List.takeWhile_append_dropWhile (p := isWsChar) (l := q)] at hc
  rcases List.mem_append.mp hc with hc | hc
  · exact List.mem_takeWhile_imp hc
  · exact h3 c hc

theorem splitOnWs_allWs : ∀ (s : Str), (∀ c ∈ s, isWsChar c = true) →
    ∀ part ∈ splitOnWs s, part = []
  | [], _, part, hp => by
    simp only [splitOnWs, List.mem_singleton] at hp
    exact hp
  | c :: r, h, part, hp => by
    have hws : isWsChar c = true := h c (by simp)
    have ih := splitOnWs_allWs r (fun c' hc' => h c' (by simp [hc']))
    rw [splitOnWs] at hp
    cases hsp : splitOnWs r with
    | nil =>
      rw [hsp] at hp
      simp at hp
      exact hp
    | cons hd tl =>
      rw [hsp] at hp
      simp only [hws, ite_true] at hp
      rcases List.mem_cons.mp hp with h1 | h1
      · exact h1
      · exact ih part (hsp ▸ h1)

theorem queryTerms_of_trim_nil {q : Str} (h : jsTrim q = []) : queryTerms q = [] := by
  have hws := allWs_of_jsTrim_nil h
  have hq : ∀ c ∈ removeQuotes q, isWsChar c = true := by
    intro c hc
    exact hws c (List.mem_filter.mp hc).1
  have hparts := splitOnWs_allWs (removeQuotes q) hq
  rw [queryTerms]
  apply List.filter_eq_nil_iff.mpr
  intro t ht
  simp [hparts t ht]

/-- C9: for every message text and query, `HighlightedText` renders parts
whose concatenation is the original text, and a part is rendered inside a
highlight span exactly when one of the query's whitespace-separated terms
(after quote removal, compared case-insensitively) occurs in it — the
captured separator parts each match a term and are highlighted, the parts
between them contain no term and are rendered plain, and the statefulness
of the shared global regex's `lastIndex` never misclassifies a part. -/
theorem highlightedText_spec (text query : Str) :
    ((highlightedText text query).map Prod.fst).flatten = text ∧
    (∀ p b, (p, b) ∈ highlightedText text query → b = anyTermOccurs query p) := by
  rw [highlightedText]
  split
  · rename_i htrim
    have hterms : queryTerms query = [] := queryTerms_of_trim_nil htrim
    constructor
    · simp
    · intro p b hmem
      rw [List.mem_singleton, Prod.mk.injEq] at hmem
      obtain ⟨rfl, rfl⟩ := hmem
      simp [anyTermOccurs, hterms]
  · split
    · rename_i hempty
      have hterms : queryTerms query = [] := by simpa using hempty
      constructor
      · simp
      · intro p b hmem
        rw [List.mem_singleton, Prod.mk.injEq] at hmem
        obtain ⟨rfl, rfl⟩ := hmem
        simp [anyTermOccurs, hterms]
    · have hspec := renderParts_spec query text.length text 0 le_rfl
      rw [splitCapture, hspec]
      constructor
      · have hjoin := splitCaptureF_join query text.length text le_rfl
        simp only [List.map_map]
        have hcomp : (Prod.fst ∘ fun p => (p, anyTermOccurs query p)) = id := rfl
        rw [hcomp, List.map_id]
        exact hjoin
      · intro p b hmem
        rcases List.mem_map.mp hmem with ⟨p', hp', heq⟩
        obtain ⟨rfl, rfl⟩ : p' = p ∧ anyTermOccurs query p' = b := by
          simpa [Prod.mk.injEq] using heq
        rfl

/-- C9 (witness): concrete application — highlighting `"say Hello"` with
query `"hello"` re-concatenates to the text, and the captured part
`"Hello"` is highlighted because the term occurs in it. -/
theorem highlightedText_spec_witness :
    ((highlightedText (str "say Hello") (str "hello")).map Prod.fst).flatten =
      str "say Hello" ∧
    true = anyTermOccurs (str "hello") (str "Hello") := by
  have h := highlightedText_spec (str "say Hello") (str "hello")
  exact ⟨h.1, h.2 (str "Hello") true (by decide)⟩

end SendNote
